import Mathlib

/-!
Shallow embedding of `src/path_planner/src/course/search.cpp` (class `Search`):
the course-graph Dijkstra search, its cost model and the geometric path
assembly.  C++ `double` arithmetic is modelled by exact rationals; the
transcendental library calls (`Eigen .norm()`, `std::atan2`, `std::cos`,
`std::sin`) and the double constants `M_PI` and
`std::numeric_limits<double>::epsilon()` are abstract parameters carried in
`Params`, so every statement below is proved for all models of those
functions.  Pointers into the course graph (`Segment*`, `Transition*`) are
modelled as natural-number identifiers, mirroring the fact that distinct C++
objects have distinct addresses.  Costs live in `WithTop ℚ`: `⊤` models the
`+infinity` a fresh `Node` starts with.
-/

namespace GeronaSearch

/-- 2D vector, models `Eigen::Vector2d`. -/
structure Vec where
  x : ℚ
  y : ℚ
deriving DecidableEq, Repr

def Vec.sub (a b : Vec) : Vec := ⟨a.x - b.x, a.y - b.y⟩

def Vec.add (a b : Vec) : Vec := ⟨a.x + b.x, a.y + b.y⟩

def Vec.smul (c : ℚ) (a : Vec) : Vec := ⟨c * a.x, c * a.y⟩

def Vec.dot (a b : Vec) : ℚ := a.x * b.x + a.y * b.y

/-- Models `path_geom::PathPose`: a 2D position plus a heading. -/
structure PathPose where
  x : ℚ
  y : ℚ
  theta : ℚ
deriving DecidableEq, Repr

/-- Models `path_geom::Line` as used by `Segment::line`: `sp` is
`startPoint()`, `ep` is `endPoint()`. -/
structure Line where
  sp : Vec
  ep : Vec
deriving DecidableEq, Repr

/-- Models `Segment` from the course graph: a straight line plus the two
adjacency lists of transition identifiers. -/
structure Segment where
  line : Line
  forward_transitions : List Nat
  backward_transitions : List Nat
deriving DecidableEq, Repr

/-- Models `Transition`: source and target segment, the curve polyline and the
derived arc length (`arc_length()` is computed from the polyline in the
header, which is not part of the sources under inspection; it is carried here
as a field). -/
structure Transition where
  source : Nat
  target : Nat
  path : List Vec
  arcLen : ℚ
deriving DecidableEq, Repr

/-- The read-only course graph exposed by `CourseGenerator`. -/
structure Course where
  segIds : List Nat
  segOf : Nat → Segment
  transOf : Nat → Transition

/-- Configuration parameters of `Search` plus the abstract models of the
floating-point library functions it calls.  Defaults in the constructor:
`backward_penalty_factor` 2.5, `turning_penalty` 5.0,
`turning_straight_segment` 0.7. -/
structure Params where
  backward_penalty_factor : ℚ
  turning_penalty : ℚ
  turning_straight_segment : ℚ
  eps : ℚ
  pi : ℚ
  nrm : Vec → ℚ
  atan2 : ℚ → ℚ → ℚ
  cos : ℚ → ℚ
  sin : ℚ → ℚ

/-- Modelled from the spec: `Node` is declared in `search.h`, which is not
among the sources; per the spec it holds a reference to its transition, the
`curve_forward` flag, the resulting segment, a cost initialized to plus
infinity, and the `prev`/`next` chain links (null-initialized). -/
structure Node where
  transition : Nat
  curve_forward : Bool
  next_segment : Nat
  cost : WithTop ℚ
  prev : Option Nat
  next : Option Nat
deriving DecidableEq, Repr

abbrev NodeMap := Nat → Node

/-- Pointwise update of the node map; models a write through a `Node*`. -/
def updN (ns : NodeMap) (t : Nat) (v : Node) : NodeMap :=
  fun u => if u = t then v else ns u

/-- Default-constructed `Node` (all searches overwrite the first three fields
before use). -/
def defaultNode : Node := ⟨0, true, 0, ⊤, none, none⟩

/-- Per-call search context: the members `start_segment`, `end_segment`,
`start_pt`, `end_pt`, `start_appendix`, `end_appendix` of `Search` as
established by `findAppendices`. -/
structure SearchCtx where
  start_segment : Nat
  end_segment : Nat
  start_pt : Vec
  end_pt : Vec
  start_appendix : List PathPose
  end_appendix : List PathPose
deriving DecidableEq, Repr

/-- Modelled from the spec: `path_geom::Line::nearestPointTo` is not among
the sources; per the spec the start/end points are the projections of the
appendix endpoints onto their nearest segment, i.e. the orthogonal projection
onto the segment's line. -/
def nearestPointTo (l : Line) (p : Vec) : Vec :=
  let d := Vec.sub l.ep l.sp
  if Vec.dot d d = 0 then l.sp
  else Vec.add l.sp (Vec.smul (Vec.dot d (Vec.sub p l.sp) / Vec.dot d d) d)

/-- `Search::initNodes`, body of the per-segment loops: each transition of
each segment gets a fresh node. -/
def initSegNodes (course : Course) (ns : NodeMap) (s : Nat) : NodeMap :=
  let ns1 := (course.segOf s).forward_transitions.foldl
    (fun m t => updN m t
      { transition := t, curve_forward := true,
        next_segment := (course.transOf t).target,
        cost := ⊤, prev := none, next := none }) ns
  (course.segOf s).backward_transitions.foldl
    (fun m t => updN m t
      { transition := t, curve_forward := false,
        next_segment := (course.transOf t).source,
        cost := ⊤, prev := none, next := none }) ns1

/-- `Search::initNodes`: `nodes.clear()` followed by the loop over all
segments of the generator. -/
def initNodes (course : Course) : NodeMap :=
  course.segIds.foldl (initSegNodes course) (fun _ => defaultNode)

/-- `Search::isSegmentForward`: direction test by the sign of the dot product
of the segment direction and the movement vector.  The `move_dir.norm() < 0.1`
check in the source only emits a `ROS_WARN` and does not affect the returned
value. -/
def isSegmentForward (_P : Params) (segment : Segment) (pos target : Vec) : Bool :=
  let segment_dir := Vec.sub segment.line.ep segment.line.sp
  let move_dir := Vec.sub target pos
  decide (0 ≤ Vec.dot segment_dir move_dir)

/-- `Search::findStartPointOnNextSegment(const Node*)`. -/
def findStartPointOnNextSegment (course : Course) (ctx : SearchCtx) (node : Node) : Vec :=
  if node.next_segment = ctx.start_segment then ctx.start_pt
  else if node.curve_forward then (course.transOf node.transition).path.getLastD ⟨0, 0⟩
  else (course.transOf node.transition).path.headD ⟨0, 0⟩

/-- `Search::findEndPointOnSegment(const Node*, const Transition*)`. -/
def findEndPointOnSegment (course : Course) (node : Node) (t : Nat) : Vec :=
  if node.curve_forward then (course.transOf t).path.headD ⟨0, 0⟩
  else (course.transOf t).path.getLastD ⟨0, 0⟩

/-- `Search::findEndPointOnNextSegment(const Node*)`. -/
def findEndPointOnNextSegment (course : Course) (ctx : SearchCtx) (ns : NodeMap)
    (node : Node) : Vec :=
  if node.next_segment = ctx.end_segment then ctx.end_pt
  else
    match node.next with
    | none =>
        if node.curve_forward then (course.segOf node.next_segment).line.ep
        else (course.segOf node.next_segment).line.sp
    | some nx => findEndPointOnSegment course (ns nx) (ns nx).transition

/-- `Search::isStartSegmentForward`. -/
def isStartSegmentForward (P : Params) (course : Course) (ctx : SearchCtx) (node : Node) : Bool :=
  isSegmentForward P (course.segOf ctx.start_segment) ctx.start_pt
    (findEndPointOnSegment course node node.transition)

/-- `Search::isNextSegmentForward`. -/
def isNextSegmentForward (P : Params) (course : Course) (ctx : SearchCtx) (ns : NodeMap)
    (node : Node) : Bool :=
  isSegmentForward P (course.segOf node.next_segment)
    (findStartPointOnNextSegment course ctx node)
    (findEndPointOnNextSegment course ctx ns node)

/-- `Search::isPreviousSegmentForward`. -/
def isPreviousSegmentForward (P : Params) (course : Course) (ctx : SearchCtx) (ns : NodeMap)
    (node : Node) : Bool :=
  match node.prev with
  | some p => isNextSegmentForward P course ctx ns (ns p)
  | none => isStartSegmentForward P course ctx node

/-- `Search::effectiveLengthOfNextSegment`. -/
def effectiveLengthOfNextSegment (P : Params) (course : Course) (ctx : SearchCtx)
    (ns : NodeMap) (node : Node) : ℚ :=
  P.nrm (Vec.sub (findStartPointOnNextSegment course ctx node)
    (findEndPointOnNextSegment course ctx ns node))

/-- `Search::calculateStraightCost`. -/
def calculateStraightCost (P : Params) (course : Course) (ctx : SearchCtx) (ns : NodeMap)
    (node : Node) (start_point_on_segment end_point_on_segment : Vec) : ℚ :=
  let segment_forward :=
    isSegmentForward P (course.segOf node.next_segment) start_point_on_segment end_point_on_segment
  let distance_to_end := P.nrm (Vec.sub end_point_on_segment start_point_on_segment)
  let cost1 := if segment_forward then distance_to_end
    else P.backward_penalty_factor * distance_to_end
  let prev_segment_forward := isPreviousSegmentForward P course ctx ns node
  if prev_segment_forward ≠ segment_forward then
    cost1 + P.turning_straight_segment + P.turning_penalty
  else if segment_forward ≠ node.curve_forward then
    cost1 + 2 * P.turning_straight_segment + 2 * P.turning_penalty
  else cost1

/-- `Search::calculateCurveCost`. -/
def calculateCurveCost (P : Params) (course : Course) (node : Node) : ℚ :=
  if node.curve_forward then (course.transOf node.transition).arcLen
  else P.backward_penalty_factor * (course.transOf node.transition).arcLen

/-- The turning surcharge added by `calculateStraightCost` on top of the
distance term, as a function of the three direction flags. -/
def turnSurcharge (P : Params) (prev_forward segment_forward curve_forward : Bool) : ℚ :=
  if prev_forward ≠ segment_forward then
    P.turning_straight_segment + P.turning_penalty
  else if segment_forward ≠ curve_forward then
    2 * P.turning_straight_segment + 2 * P.turning_penalty
  else 0

/-! ### The frontier

The C++ frontier is a `std::set<Node*, comp>` whose comparator `comp` orders
pointers solely by the nodes' current `cost`.  It is modelled as a list of
transition identifiers kept sorted by cost: `insert` is a no-op when an
element with equal cost is already present (equal-cost keys are equivalent
under `comp`, so `std::set::insert` rejects them), `erase(begin())` drops the
head, and `find`/`erase` by value locate an element whose cost equals the
argument's current cost (the source mutates `neighbor->cost` while the node
may sit in the set, so all comparator calls are modelled with the costs at
the time of the call). -/

/-- Sorted insertion by current cost (the `else` path of `std::set::insert`). -/
def insertByCost (ns : NodeMap) : List Nat → Nat → List Nat
  | [], t => [t]
  | u :: rest, t =>
      if (ns t).cost < (ns u).cost then t :: u :: rest
      else u :: insertByCost ns rest t

/-- `queue.insert(node)`: rejected when an equal-cost element is present. -/
def qinsert (ns : NodeMap) (q : List Nat) (t : Nat) : List Nat :=
  if q.any (fun u => decide ((ns u).cost = (ns t).cost)) then q
  else insertByCost ns q t

/-- `queue.erase(node)` after a successful `queue.find(node)`: removes the
element whose cost compares equivalent to `c`. -/
def eraseFirstCost (ns : NodeMap) (c : WithTop ℚ) : List Nat → List Nat
  | [] => []
  | u :: rest => if (ns u).cost = c then rest else u :: eraseFirstCost ns c rest

/-- The mutable state of `performDijkstraSearch`: the node arena, the
frontier, and the members `min_cost` and `best_path`. -/
structure SState where
  nodes : NodeMap
  queue : List Nat
  min_cost : WithTop ℚ
  best_path : List PathPose

/-! ### Path assembly -/

/-- `Search::combine`. -/
def combine (s c e : List PathPose) : List PathPose :=
  if s = [] ∧ e = [] then c else s ++ c ++ e

/-- `Search::insertFirstNode`: a pose at the start point headed along the
start segment's direction. -/
def insertFirstNode (P : Params) (course : Course) (ctx : SearchCtx)
    (res : List PathPose) : List PathPose :=
  let pos := ctx.start_pt
  let delta := Vec.sub (course.segOf ctx.start_segment).line.ep
    (course.segOf ctx.start_segment).line.sp
  res ++ [⟨pos.x, pos.y, P.atan2 delta.y delta.x⟩]

/-- `Search::insertLastNode`: a pose at the end point headed along the end
segment's direction. -/
def insertLastNode (P : Params) (course : Course) (ctx : SearchCtx)
    (res : List PathPose) : List PathPose :=
  let pos := ctx.end_pt
  let delta := Vec.sub (course.segOf ctx.end_segment).line.ep
    (course.segOf ctx.end_segment).line.sp
  res ++ [⟨pos.x, pos.y, P.atan2 delta.y delta.x⟩]

/-- `Search::extendAlongTargetSegment`: one pose offset from the curve's last
point by `turning_straight_segment` along the target segment's direction. -/
def extendAlongTargetSegment (P : Params) (course : Course) (res : List PathPose)
    (node : Node) : List PathPose :=
  let tr := course.transOf node.transition
  let pt := tr.path.getLastD ⟨0, 0⟩
  let delta := Vec.sub (course.segOf tr.target).line.ep (course.segOf tr.target).line.sp
  let c_yaw := P.atan2 delta.y delta.x
  let pt2 := Vec.add pt ⟨P.turning_straight_segment * P.cos c_yaw,
    P.turning_straight_segment * P.sin c_yaw⟩
  res ++ [⟨pt2.x, pt2.y, c_yaw⟩]

/-- `Search::extendAlongSourceSegment`: one pose offset from the curve's
first point along the reversed source segment direction (`+ M_PI`). -/
def extendAlongSourceSegment (P : Params) (course : Course) (res : List PathPose)
    (node : Node) : List PathPose :=
  let tr := course.transOf node.transition
  let pt := tr.path.headD ⟨0, 0⟩
  let delta := Vec.sub (course.segOf tr.source).line.ep (course.segOf tr.source).line.sp
  let c_yaw := P.atan2 delta.y delta.x + P.pi
  let pt2 := Vec.add pt ⟨P.turning_straight_segment * P.cos c_yaw,
    P.turning_straight_segment * P.sin c_yaw⟩
  res ++ [⟨pt2.x, pt2.y, c_yaw⟩]

/-- `Search::extendWithStraightTurningSegment`. -/
def extendWithStraightTurningSegment (P : Params) (res : List PathPose)
    (pt : Vec) : List PathPose :=
  let back := res.getLastD ⟨0, 0, 0⟩
  let prev_pt : Vec := ⟨back.x, back.y⟩
  let dir := Vec.sub pt prev_pt
  let offset := Vec.smul (P.turning_straight_segment / P.nrm dir) dir
  let pos := Vec.add pt offset
  res ++ [⟨pos.x, pos.y, P.atan2 dir.y dir.x⟩]

/-- Forward branch of `Search::insertCurveSegment`: for `j` from 1 to
`m - 1`, a pose at `path[j]` with heading along `path[j] - path[j-1]`. -/
def curvePosesFwd (P : Params) : List Vec → List PathPose
  | p0 :: p1 :: rest =>
      ⟨p1.x, p1.y, P.atan2 (p1.y - p0.y) (p1.x - p0.x)⟩ :: curvePosesFwd P (p1 :: rest)
  | _ => []

/-- Backward branch of `Search::insertCurveSegment`: for `j` from `m - 2`
down to 0, a pose at `path[j]` with heading along `path[j] - path[j+1]`. -/
def curvePosesBwd (P : Params) : List Vec → List PathPose
  | p0 :: p1 :: rest =>
      curvePosesBwd P (p1 :: rest) ++ [⟨p0.x, p0.y, P.atan2 (p0.y - p1.y) (p0.x - p1.x)⟩]
  | _ => []

/-- `Search::insertCurveSegment`. -/
def insertCurveSegment (P : Params) (course : Course) (node : Node)
    (res : List PathPose) : List PathPose :=
  let path := (course.transOf node.transition).path
  if node.curve_forward then res ++ curvePosesFwd P path
  else res ++ curvePosesBwd P path

/-- One iteration of the hop loop of `Search::generatePath`; the `Bool`
component is the running `segment_forward` flag. -/
def genStep (P : Params) (course : Course) (ctx : SearchCtx) (ns : NodeMap)
    (acc : List PathPose × Bool) (t : Nat) : List PathPose × Bool :=
  let res := acc.1
  let segment_forward := acc.2
  let node := ns t
  let eff_len := effectiveLengthOfNextSegment P course ctx ns node
  if eff_len < P.eps then
    (insertCurveSegment P course node res, segment_forward)
  else
    let next_segment_forward := isNextSegmentForward P course ctx ns node
    let res2 :=
      if next_segment_forward = segment_forward then
        if node.curve_forward = next_segment_forward then
          insertCurveSegment P course node res
        else
          let resA :=
            if node.curve_forward then
              extendWithStraightTurningSegment P res
                ((course.transOf node.transition).path.headD ⟨0, 0⟩)
            else
              extendWithStraightTurningSegment P res
                ((course.transOf node.transition).path.getLastD ⟨0, 0⟩)
          let resB := insertCurveSegment P course node resA
          if node.curve_forward then extendAlongTargetSegment P course resB node
          else extendAlongSourceSegment P course resB node
      else
        if segment_forward then
          if node.curve_forward then
            extendAlongTargetSegment P course (insertCurveSegment P course node res) node
          else
            insertCurveSegment P course node (extendAlongTargetSegment P course res node)
        else
          if node.curve_forward then
            insertCurveSegment P course node (extendAlongSourceSegment P course res node)
          else
            extendAlongSourceSegment P course (insertCurveSegment P course node res) node
    (res2, next_segment_forward)

/-- `Search::generatePath`: first node pose, the hop loop, last node pose. -/
def generatePath (P : Params) (course : Course) (ctx : SearchCtx) (ns : NodeMap)
    (chain : List Nat) : List PathPose :=
  let res0 := insertFirstNode P course ctx []
  let sf0 := isStartSegmentForward P course ctx (ns (chain.headD 0))
  insertLastNode P course ctx (chain.foldl (genStep P course ctx ns) (res0, sf0)).1

/-! ### The search loop -/

/-- The deferred straight-segment cost from a node to the actual end point,
added by `generatePathCandidate` (search.cpp line 406). -/
def deferredCost (P : Params) (course : Course) (ctx : SearchCtx) (ns : NodeMap)
    (t : Nat) : ℚ :=
  calculateStraightCost P course ctx ns (ns t)
    (findStartPointOnNextSegment course ctx (ns t)) ctx.end_pt

/-- The backward walk of `generatePathCandidate`: collects the predecessor
chain front-first and repairs the forward links (`tmp->prev->next = tmp`).
`prev` chains produced by the search are finite, but the raw pointer chase is
bounded here by explicit fuel. -/
def buildChain : Nat → NodeMap → Nat → List Nat × NodeMap
  | 0, ns, _ => ([], ns)
  | fuel + 1, ns, t =>
      match (ns t).prev with
      | none => ([t], ns)
      | some p =>
          let ns2 := updN ns p { ns p with next := some t }
          let r := buildChain fuel ns2 p
          (r.1 ++ [t], r.2)

/-- `Search::generatePathCandidate`: add the deferred end-connection cost to
the dequeued node's cost, and when the total beats `min_cost`, rebuild the
chain and regenerate `best_path`. -/
def generatePathCandidate (P : Params) (course : Course) (ctx : SearchCtx) (cfuel : Nat)
    (s : SState) (t : Nat) : SState :=
  let additional := deferredCost P course ctx s.nodes t
  let ns1 := updN s.nodes t
    { s.nodes t with cost := (s.nodes t).cost + (additional : ℚ) }
  if (ns1 t).cost < s.min_cost then
    { nodes := (buildChain cfuel ns1 t).2, queue := s.queue,
      min_cost := (ns1 t).cost,
      best_path := generatePath P course ctx (buildChain cfuel ns1 t).2
        (buildChain cfuel ns1 t).1 }
  else { s with nodes := ns1 }

/-- The relaxation body of the neighbor loop in `performDijkstraSearch`
(search.cpp lines 96-113), for current node `t` and neighbor transition `u`. -/
def relaxOne (P : Params) (course : Course) (ctx : SearchCtx) (t : Nat)
    (acc : NodeMap × List Nat) (u : Nat) : NodeMap × List Nat :=
  let ns := acc.1
  let q := acc.2
  let curve_cost := calculateCurveCost P course (ns t)
  let straight_cost := calculateStraightCost P course ctx ns (ns t)
    (findStartPointOnNextSegment course ctx (ns t))
    (findEndPointOnSegment course (ns t) u)
  let new_cost := (ns t).cost + ((curve_cost + straight_cost : ℚ) : WithTop ℚ)
  if new_cost < (ns u).cost then
    let ns1 := updN ns u { ns u with prev := some t }
    let ns2 := updN ns1 t { ns1 t with next := some u }
    let ns3 := updN ns2 u { ns2 u with cost := new_cost }
    let q1 :=
      if q.any (fun v => decide ((ns3 v).cost = (ns3 u).cost)) then
        eraseFirstCost ns3 ((ns3 u).cost) q
      else q
    (ns3, qinsert ns3 q1 u)
  else (ns, q)

/-- The two neighbor loops (`forward_transitions` then
`backward_transitions` of the current node's resulting segment). -/
def expand (P : Params) (course : Course) (ctx : SearchCtx) (t : Nat)
    (ns : NodeMap) (q : List Nat) : NodeMap × List Nat :=
  let seg := course.segOf (ns t).next_segment
  (seg.forward_transitions ++ seg.backward_transitions).foldl
    (relaxOne P course ctx t) (ns, q)

/-- One iteration of the `while(!queue.empty())` loop: `none` means the loop
exits (the frontier is empty); a dequeued node whose resulting segment is the
end segment finalizes a candidate and continues, all others are expanded. -/
def dijkstraStep (P : Params) (course : Course) (ctx : SearchCtx) (cfuel : Nat)
    (s : SState) : Option SState :=
  match s.queue with
  | [] => none
  | t :: rest =>
      if (s.nodes t).next_segment = ctx.end_segment then
        some (generatePathCandidate P course ctx cfuel { s with queue := rest } t)
      else
        some { s with
          nodes := (expand P course ctx t s.nodes rest).1,
          queue := (expand P course ctx t s.nodes rest).2 }

/-- Fuel-bounded iteration of `dijkstraStep`.  The C++ loop runs until the
frontier is empty; all statements below either hold per step or are about
runs that demonstrably reach the empty frontier within the given fuel. -/
def dijkstraRun (P : Params) (course : Course) (ctx : SearchCtx) (cfuel : Nat) :
    Nat → SState → SState
  | 0, s => s
  | fuel + 1, s =>
      match dijkstraStep P course ctx cfuel s with
      | none => s
      | some s2 => dijkstraRun P course ctx cfuel fuel s2

/-- The entry point on enqueueStartingNodes: the neighbor's entry point
`node->curve_forward ? path.front() : path.back()`. -/
def startEntryPoint (course : Course) (node : Node) : Vec :=
  if node.curve_forward then (course.transOf node.transition).path.headD ⟨0, 0⟩
  else (course.transOf node.transition).path.getLastD ⟨0, 0⟩

/-- Body of the seeding loop of `Search::enqueueStartingNodes`. -/
def enqueueStep (P : Params) (course : Course) (ctx : SearchCtx)
    (acc : NodeMap × List Nat) (t : Nat) : NodeMap × List Nat :=
  let ns := acc.1
  let q := acc.2
  let c := calculateStraightCost P course ctx ns (ns t) ctx.start_pt
    (startEntryPoint course (ns t))
  let ns1 := updN ns t { ns t with cost := (c : ℚ) }
  (ns1, qinsert ns1 q t)

/-- `Search::enqueueStartingNodes`: seed the frontier from both transition
lists of the start segment. -/
def enqueueStartingNodes (P : Params) (course : Course) (ctx : SearchCtx)
    (ns : NodeMap) : NodeMap × List Nat :=
  ((course.segOf ctx.start_segment).forward_transitions ++
    (course.segOf ctx.start_segment).backward_transitions).foldl
    (enqueueStep P course ctx) (ns, [])

/-- The search state right after `initNodes`, frontier seeding and
`min_cost = infinity` in `performDijkstraSearch`; `member_best` is the value
the member `best_path` holds when the call starts (it is not reset). -/
def initialSearchState (P : Params) (course : Course) (ctx : SearchCtx)
    (member_best : List PathPose) : SState :=
  let ns := initNodes course
  let r := enqueueStartingNodes P course ctx ns
  { nodes := r.1, queue := r.2, min_cost := ⊤, best_path := member_best }

/-- `Search::performDijkstraSearch`; the second component is the value the
member `best_path` holds after the call. -/
def performDijkstraSearch (P : Params) (course : Course) (ctx : SearchCtx)
    (fuel cfuel : Nat) (member_best : List PathPose) : List PathPose × List PathPose :=
  let sF := dijkstraRun P course ctx cfuel fuel (initialSearchState P course ctx member_best)
  (combine ctx.start_appendix sF.best_path ctx.end_appendix, sF.best_path)

/-! ### `findPath` and its external collaborators

`findPath` talks to the map service, the two appendix pathfinders and the
course generator's nearest-segment lookup.  Their per-call answers are
supplied in an `Env` record.  `findAppendices` is embedded in an error monad:
`search.cpp` line 196 evaluates `start_segment->line.nearestPointTo(...)`
before the `if(!start_segment)` guard of line 197 (and line 211 before line
212 for the end segment), so a failed nearest-segment lookup reaches a null
pointer dereference, modelled as `Except.error CrashKind.nullDeref`. -/

inductive CrashKind
  | nullDeref
deriving DecidableEq, Repr

/-- Per-call answers of the external collaborators of `findPath`. -/
structure Env where
  mapOk : Bool
  startAppendixRes : List PathPose
  endAppendixRes : List PathPose
  closestStart : Option Nat
  closestEnd : Option Nat

/-- `Search::findAppendices`: `.ok none` models `return false` (logged
connector failure), `.ok (some ctx)` models `return true` with the member
fields it established. -/
def findAppendices (course : Course) (env : Env) : Except CrashKind (Option SearchCtx) :=
  let start_appendix := env.startAppendixRes
  if start_appendix = [] then .ok none
  else
    let start := start_appendix.getLastD ⟨0, 0, 0⟩
    match env.closestStart with
    | none => .error .nullDeref
    | some start_segment =>
        let start_pt := nearestPointTo (course.segOf start_segment).line ⟨start.x, start.y⟩
        let end_raw := env.endAppendixRes
        if end_raw = [] then .ok none
        else
          let end_appendix := end_raw.reverse
          let endp := end_appendix.headD ⟨0, 0, 0⟩
          match env.closestEnd with
          | none => .error .nullDeref
          | some end_segment =>
              let end_pt := nearestPointTo (course.segOf end_segment).line ⟨endp.x, endp.y⟩
              .ok (some { start_segment := start_segment, end_segment := end_segment,
                          start_pt := start_pt, end_pt := end_pt,
                          start_appendix := start_appendix, end_appendix := end_appendix })

/-- `Search::findPath`; `member_best` is the member `best_path` carried over
from earlier calls on the same `Search` instance, and the second component of
the result is its value after this call. -/
def findPath (P : Params) (course : Course) (env : Env) (fuel cfuel : Nat)
    (member_best : List PathPose) : Except CrashKind (List PathPose × List PathPose) :=
  if env.mapOk = false then .ok ([], member_best)
  else
    match findAppendices course env with
    | .error e => .error e
    | .ok none => .ok ([], member_best)
    | .ok (some ctx) =>
        if ctx.start_segment = ctx.end_segment then
          .ok (combine ctx.start_appendix
                (insertLastNode P course ctx (insertFirstNode P course ctx []))
                ctx.end_appendix,
               member_best)
        else .ok (performDijkstraSearch P course ctx fuel cfuel member_best)

/-! ### Concrete evaluation data

A small course used to evaluate the embedding at concrete inputs.  All
vectors are axis-aligned, so the taxicab norm used for `P0.nrm` coincides
with the Euclidean norm on every difference the scenarios compute. -/

/-- Concrete parameters: the constructor's default configuration values and
axis-aligned-exact models of the library functions. -/
def P0 : Params :=
  { backward_penalty_factor := 5 / 2
    turning_penalty := 5
    turning_straight_segment := 7 / 10
    eps := 1 / 1000000
    pi := 3
    nrm := fun v => |v.x| + |v.y|
    atan2 := fun _ _ => 0
    cos := fun _ => 1
    sin := fun _ => 0 }

def seg0 : Segment := ⟨⟨⟨0, 0⟩, ⟨10, 0⟩⟩, [0], []⟩

def seg1 : Segment := ⟨⟨⟨20, 0⟩, ⟨30, 0⟩⟩, [], []⟩

def seg2 : Segment := ⟨⟨⟨100, 100⟩, ⟨110, 100⟩⟩, [], []⟩

def seg3 : Segment := ⟨⟨⟨200, 200⟩, ⟨210, 200⟩⟩, [], []⟩

def seg4 : Segment := ⟨⟨⟨0, 50⟩, ⟨10, 50⟩⟩, [1, 2], []⟩

def tr0 : Transition := ⟨0, 1, [⟨10, 0⟩, ⟨20, 0⟩], 10⟩

def tr1 : Transition := ⟨4, 1, [⟨10, 51⟩, ⟨10, 60⟩], 9⟩

def tr2 : Transition := ⟨4, 1, [⟨10, 49⟩, ⟨10, 40⟩], 9⟩

def course0 : Course :=
  { segIds := [0, 1, 2, 3, 4]
    segOf := fun s =>
      if s = 0 then seg0 else if s = 1 then seg1 else if s = 2 then seg2
      else if s = 3 then seg3 else seg4
    transOf := fun t => if t = 0 then tr0 else if t = 1 then tr1 else tr2 }

/-- A request whose start lands on segment 0 and end on segment 1, connected
by the single forward transition 0. -/
def env1 : Env :=
  { mapOk := true
    startAppendixRes := [⟨0, 0, 0⟩]
    endAppendixRes := [⟨30, 0, 0⟩]
    closestStart := some 0
    closestEnd := some 1 }

/-- The context `findAppendices` establishes for `env1`. -/
def ctx1 : SearchCtx :=
  { start_segment := 0, end_segment := 1
    start_pt := ⟨0, 0⟩, end_pt := ⟨30, 0⟩
    start_appendix := [⟨0, 0, 0⟩], end_appendix := [⟨30, 0, 0⟩] }

/-- A request between the two isolated segments 2 and 3: the search can
never reach the end segment, so no candidate is found. -/
def env2 : Env :=
  { mapOk := true
    startAppendixRes := [⟨100, 100, 0⟩]
    endAppendixRes := [⟨210, 200, 0⟩]
    closestStart := some 2
    closestEnd := some 3 }

/-- The context `findAppendices` establishes for `env2`. -/
def ctx2 : SearchCtx :=
  { start_segment := 2, end_segment := 3
    start_pt := ⟨100, 100⟩, end_pt := ⟨210, 200⟩
    start_appendix := [⟨100, 100, 0⟩], end_appendix := [⟨210, 200, 0⟩] }

/-- A context whose start segment 4 has two start transitions (1 and 2) with
mirror-image entry points, hence equal seeding costs. -/
def ctx4 : SearchCtx :=
  { start_segment := 4, end_segment := 3
    start_pt := ⟨10, 50⟩, end_pt := ⟨200, 200⟩
    start_appendix := [⟨0, 0, 0⟩], end_appendix := [⟨0, 0, 0⟩] }

/-- A request whose start-side nearest-segment lookup finds no segment
within tolerance. -/
def env6 : Env :=
  { mapOk := true
    startAppendixRes := [⟨0, 0, 0⟩]
    endAppendixRes := [⟨30, 0, 0⟩]
    closestStart := none
    closestEnd := some 1 }

/-- A request whose start and end both project onto segment 0. -/
def env9 : Env :=
  { mapOk := true
    startAppendixRes := [⟨0, 0, 0⟩]
    endAppendixRes := [⟨5, 0, 0⟩]
    closestStart := some 0
    closestEnd := some 0 }

/-- The context `findAppendices` establishes for `env9`. -/
def ctx9 : SearchCtx :=
  { start_segment := 0, end_segment := 0
    start_pt := ⟨0, 0⟩, end_pt := ⟨5, 0⟩
    start_appendix := [⟨0, 0, 0⟩], end_appendix := [⟨5, 0, 0⟩] }

/-- The best path computed by the search for `env1` (with `P0.atan2` all
headings are 0). -/
def B1 : List PathPose := [⟨0, 0, 0⟩, ⟨20, 0, 0⟩, ⟨30, 0, 0⟩]

/-! ### Specification-side views used in theorem statements -/

/-- The pose rendered for a consecutive pair of polyline points in traversal
order: position is the second point, heading points from the first to the
second. -/
def mkCurvePose (P : Params) (ab : Vec × Vec) : PathPose :=
  ⟨ab.2.x, ab.2.y, P.atan2 (ab.2.y - ab.1.y) (ab.2.x - ab.1.x)⟩

/-- The pose rendered for a consecutive pair of polyline points against
traversal order: position is the first point, heading points from the second
to the first. -/
def mkCurvePoseRev (P : Params) (ab : Vec × Vec) : PathPose :=
  ⟨ab.1.x, ab.1.y, P.atan2 (ab.1.y - ab.2.y) (ab.1.x - ab.2.x)⟩

/-- The transition polyline in the order the curve is traversed. -/
def traversalOrder (course : Course) (node : Node) : List Vec :=
  if node.curve_forward then (course.transOf node.transition).path
  else (course.transOf node.transition).path.reverse

/-- A single-node search state used to evaluate one non-goal step. -/
def sW : SState :=
  { nodes := initNodes course0, queue := [0], min_cost := ⊤, best_path := [] }

/-- A search state with untouched (infinite-cost) nodes, used to evaluate
candidate finalization when the total does not improve the minimum. -/
def sH : SState :=
  { nodes := initNodes course0, queue := [], min_cost := ⊤, best_path := [] }

/-! ## Basic lemmas -/

theorem updN_apply (ns : NodeMap) (t : Nat) (v : Node) (u : Nat) :
    updN ns t v u = if u = t then v else ns u := rfl

theorem updN_same (ns : NodeMap) (t : Nat) (v : Node) : updN ns t v t = v := by
  simp [updN]

theorem updN_other (ns : NodeMap) (t : Nat) (v : Node) (u : Nat) (h : u ≠ t) :
    updN ns t v u = ns u := by
  simp [updN, h]

/-- `calculateStraightCost` splits into the (possibly penalized) distance
term plus the turning surcharge. -/
theorem calculateStraightCost_eq (P : Params) (course : Course) (ctx : SearchCtx)
    (ns : NodeMap) (node : Node) (sp ep : Vec) :
    calculateStraightCost P course ctx ns node sp ep =
      (if isSegmentForward P (course.segOf node.next_segment) sp ep then P.nrm (Vec.sub ep sp)
       else P.backward_penalty_factor * P.nrm (Vec.sub ep sp)) +
      turnSurcharge P (isPreviousSegmentForward P course ctx ns node)
        (isSegmentForward P (course.segOf node.next_segment) sp ep) node.curve_forward := by
  simp only [calculateStraightCost, turnSurcharge]
  split_ifs <;> ring

/-- The node-map argument of `calculateStraightCost` is only read through
`prev` chains; a node with no predecessor gives the same cost under any map. -/
theorem calculateStraightCost_prev_none (P : Params) (course : Course) (ctx : SearchCtx)
    (ns1 ns2 : NodeMap) (node : Node) (h : node.prev = none) (sp ep : Vec) :
    calculateStraightCost P course ctx ns1 node sp ep =
      calculateStraightCost P course ctx ns2 node sp ep := by
  simp only [calculateStraightCost, isPreviousSegmentForward, h]

/-! ## C3 -/

/-- C3: `calculateStraightCost` adds exactly `turning_straight_segment +
turning_penalty` on top of the distance term when the previous travel
direction differs from the current one (single turn), exactly twice each when
they agree but the current direction differs from the node's curve direction
(double turn), and nothing otherwise. -/
theorem straight_cost_turn_surcharge :
    (∀ (P : Params) (course : Course) (ctx : SearchCtx) (ns : NodeMap) (node : Node) (sp ep : Vec),
      calculateStraightCost P course ctx ns node sp ep =
        (if isSegmentForward P (course.segOf node.next_segment) sp ep then P.nrm (Vec.sub ep sp)
         else P.backward_penalty_factor * P.nrm (Vec.sub ep sp)) +
        turnSurcharge P (isPreviousSegmentForward P course ctx ns node)
          (isSegmentForward P (course.segOf node.next_segment) sp ep) node.curve_forward) ∧
    (∀ (P : Params) (pf sf cf : Bool), pf ≠ sf →
      turnSurcharge P pf sf cf = P.turning_straight_segment + P.turning_penalty) ∧
    (∀ (P : Params) (pf sf cf : Bool), pf = sf → sf ≠ cf →
      turnSurcharge P pf sf cf = 2 * P.turning_straight_segment + 2 * P.turning_penalty) ∧
    (∀ (P : Params) (pf sf cf : Bool), pf = sf → sf = cf → turnSurcharge P pf sf cf = 0) := by
  refine ⟨calculateStraightCost_eq, ?_, ?_, ?_⟩
  · intro P pf sf cf h
    simp [turnSurcharge, h]
  · intro P pf sf cf h h2
    simp [turnSurcharge, h, h2]
  · intro P pf sf cf h h2
    simp [turnSurcharge, h, h2]

/-- Instantiation of the surcharge cases of the previous theorem at concrete
direction flags. -/
theorem straight_cost_turn_surcharge_inst :
    turnSurcharge P0 true false true = P0.turning_straight_segment + P0.turning_penalty ∧
    turnSurcharge P0 true true false =
      2 * P0.turning_straight_segment + 2 * P0.turning_penalty ∧
    turnSurcharge P0 true true true = 0 :=
  ⟨straight_cost_turn_surcharge.2.1 P0 true false true (by decide),
   straight_cost_turn_surcharge.2.2.1 P0 true true false rfl (by decide),
   straight_cost_turn_surcharge.2.2.2 P0 true true true rfl rfl⟩

/-! ## C8 -/

/-- C8: a backward curve costs exactly `backward_penalty_factor` times the
arc length (the forward cost), and the distance term of
`calculateStraightCost` is the norm of the segment vector forward and
`backward_penalty_factor` times it backward. -/
theorem backward_penalty_scaling :
    (∀ (P : Params) (course : Course) (n : Node), n.curve_forward = true →
      calculateCurveCost P course n = (course.transOf n.transition).arcLen) ∧
    (∀ (P : Params) (course : Course) (n : Node), n.curve_forward = false →
      calculateCurveCost P course n =
        P.backward_penalty_factor * (course.transOf n.transition).arcLen) ∧
    (∀ (P : Params) (course : Course) (nf nb : Node),
      nf.curve_forward = true → nb.curve_forward = false → nb.transition = nf.transition →
      calculateCurveCost P course nb = P.backward_penalty_factor * calculateCurveCost P course nf) ∧
    (∀ (P : Params) (course : Course) (ctx : SearchCtx) (ns : NodeMap) (node : Node) (sp ep : Vec),
      isSegmentForward P (course.segOf node.next_segment) sp ep = true →
      calculateStraightCost P course ctx ns node sp ep =
        P.nrm (Vec.sub ep sp) +
          turnSurcharge P (isPreviousSegmentForward P course ctx ns node) true node.curve_forward) ∧
    (∀ (P : Params) (course : Course) (ctx : SearchCtx) (ns : NodeMap) (node : Node) (sp ep : Vec),
      isSegmentForward P (course.segOf node.next_segment) sp ep = false →
      calculateStraightCost P course ctx ns node sp ep =
        P.backward_penalty_factor * P.nrm (Vec.sub ep sp) +
          turnSurcharge P (isPreviousSegmentForward P course ctx ns node) false node.curve_forward) := by
  refine ⟨?_, ?_, ?_, ?_, ?_⟩
  · intro P course n h
    simp [calculateCurveCost, h]
  · intro P course n h
    simp [calculateCurveCost, h]
  · intro P course nf nb hf hb ht
    simp [calculateCurveCost, hf, hb, ht]
  · intro P course ctx ns node sp ep h
    rw [calculateStraightCost_eq, h]
    simp
  · intro P course ctx ns node sp ep h
    rw [calculateStraightCost_eq, h]
    simp

/-- Instantiation of the scaling theorem at the two curve directions of a
concrete transition. -/
theorem backward_penalty_scaling_inst :
    calculateCurveCost P0 course0 ⟨0, true, 1, ⊤, none, none⟩ = (course0.transOf 0).arcLen ∧
    calculateCurveCost P0 course0 ⟨0, false, 0, ⊤, none, none⟩ =
      P0.backward_penalty_factor * calculateCurveCost P0 course0 ⟨0, true, 1, ⊤, none, none⟩ :=
  ⟨backward_penalty_scaling.1 P0 course0 ⟨0, true, 1, ⊤, none, none⟩ rfl,
   backward_penalty_scaling.2.2.1 P0 course0 ⟨0, true, 1, ⊤, none, none⟩
     ⟨0, false, 0, ⊤, none, none⟩ rfl rfl rfl⟩

/-! ## C10 -/

/-- C10: `isSegmentForward` returns exactly the test `0 ≤ dot`, classifies a
zero dot product (zero or orthogonal movement) as forward, is independent of
the norm model (the small-movement check only warns), and under a zero dot
product `calculateStraightCost` charges the unpenalized distance term with
the current direction counted as forward in the surcharge comparisons. -/
theorem is_segment_forward_spec :
    (∀ (P : Params) (segment : Segment) (pos target : Vec),
      isSegmentForward P segment pos target =
        decide (0 ≤ Vec.dot (Vec.sub segment.line.ep segment.line.sp) (Vec.sub target pos))) ∧
    (∀ (P : Params) (segment : Segment) (pos target : Vec),
      Vec.dot (Vec.sub segment.line.ep segment.line.sp) (Vec.sub target pos) = 0 →
      isSegmentForward P segment pos target = true) ∧
    (∀ (P Q : Params) (segment : Segment) (pos target : Vec),
      isSegmentForward P segment pos target = isSegmentForward Q segment pos target) ∧
    (∀ (P : Params) (course : Course) (ctx : SearchCtx) (ns : NodeMap) (node : Node) (sp ep : Vec),
      Vec.dot (Vec.sub (course.segOf node.next_segment).line.ep
        (course.segOf node.next_segment).line.sp) (Vec.sub ep sp) = 0 →
      calculateStraightCost P course ctx ns node sp ep =
        P.nrm (Vec.sub ep sp) +
          turnSurcharge P (isPreviousSegmentForward P course ctx ns node) true node.curve_forward) := by
  refine ⟨fun P segment pos target => rfl, ?_, fun P Q segment pos target => rfl, ?_⟩
  · intro P segment pos target h
    simp [isSegmentForward, h]
  · intro P course ctx ns node sp ep h
    have hsf : isSegmentForward P (course.segOf node.next_segment) sp ep = true := by
      simp [isSegmentForward, h]
    rw [calculateStraightCost_eq, hsf]
    simp

/-- Instantiation at an exactly orthogonal movement vector. -/
theorem is_segment_forward_spec_inst :
    isSegmentForward P0 seg0 ⟨0, 0⟩ ⟨0, 5⟩ = true ∧
    calculateStraightCost P0 course0 ctx1 (initNodes course0) ⟨0, true, 1, ⊤, none, none⟩
        ⟨20, 0⟩ ⟨20, 5⟩ =
      P0.nrm (Vec.sub ⟨20, 5⟩ ⟨20, 0⟩) +
        turnSurcharge P0
          (isPreviousSegmentForward P0 course0 ctx1 (initNodes course0) ⟨0, true, 1, ⊤, none, none⟩)
          true true :=
  ⟨is_segment_forward_spec.2.1 P0 seg0 ⟨0, 0⟩ ⟨0, 5⟩ (by with_unfolding_all rfl),
   is_segment_forward_spec.2.2.2 P0 course0 ctx1 (initNodes course0) ⟨0, true, 1, ⊤, none, none⟩
     ⟨20, 0⟩ ⟨20, 5⟩ (by with_unfolding_all rfl)⟩

/-! ## C7 -/

/-- The forward curve loop renders one pose per consecutive pair of polyline
points. -/
theorem curvePosesFwd_eq (P : Params) : ∀ l : List Vec,
    curvePosesFwd P l = (l.zip l.tail).map (mkCurvePose P)
  | [] => rfl
  | [_] => rfl
  | a :: b :: t => by
      show (⟨b.x, b.y, P.atan2 (b.y - a.y) (b.x - a.x)⟩ : PathPose) ::
        curvePosesFwd P (b :: t) = _
      rw [curvePosesFwd_eq P (b :: t)]
      rfl

/-- Appending a final point appends exactly one rendered pose. -/
theorem curvePosesFwd_append (P : Params) : ∀ (xs : List Vec) (a : Vec) (h : xs ≠ []),
    curvePosesFwd P (xs ++ [a]) =
      curvePosesFwd P xs ++ [mkCurvePose P (xs.getLast h, a)]
  | [], _, h => absurd rfl h
  | [_], _, _ => rfl
  | x :: y :: t, a, _ => by
      show (⟨y.x, y.y, P.atan2 (y.y - x.y) (y.x - x.x)⟩ : PathPose) ::
        curvePosesFwd P ((y :: t) ++ [a]) = _
      rw [curvePosesFwd_append P (y :: t) a (by simp)]
      rfl

/-- The backward curve loop renders exactly the forward loop of the reversed
polyline. -/
theorem curvePosesBwd_eq_reverse (P : Params) : ∀ l : List Vec,
    curvePosesBwd P l = curvePosesFwd P l.reverse
  | [] => rfl
  | [_] => rfl
  | a :: b :: t => by
      show curvePosesBwd P (b :: t) ++
        [(⟨a.x, a.y, P.atan2 (a.y - b.y) (a.x - b.x)⟩ : PathPose)] = _
      rw [curvePosesBwd_eq_reverse P (b :: t)]
      have hrev : (a :: b :: t).reverse = (b :: t).reverse ++ [a] := by simp
      rw [hrev, curvePosesFwd_append P ((b :: t).reverse) a (by simp)]
      have hlast : ((b :: t).reverse).getLast (by simp) = b := by
        rw [List.getLast_reverse]
        rfl
      rw [hlast]
      rfl

/-- C7 (amended): `insertCurveSegment` appends one pose for every point of
the polyline except the first in traversal order (forward order when the
curve is forward, reversed order when backward), positioned at the later
point of each consecutive traversal pair with heading from the earlier point
to it. -/
theorem insert_curve_segment_poses :
    ∀ (P : Params) (course : Course) (node : Node) (res : List PathPose),
      insertCurveSegment P course node res =
        res ++ ((traversalOrder course node).zip (traversalOrder course node).tail).map
          (mkCurvePose P) ∧
      (insertCurveSegment P course node res).length =
        res.length + ((course.transOf node.transition).path.length - 1) := by
  intro P course node res
  have hmain : insertCurveSegment P course node res =
      res ++ ((traversalOrder course node).zip (traversalOrder course node).tail).map
        (mkCurvePose P) := by
    unfold insertCurveSegment traversalOrder
    by_cases h : node.curve_forward
    · simp only [h, if_true, curvePosesFwd_eq]
    · simp only [h, if_false, Bool.false_eq_true, curvePosesBwd_eq_reverse, curvePosesFwd_eq]
  refine ⟨hmain, ?_⟩
  rw [hmain]
  have hlen : (traversalOrder course node).length =
      (course.transOf node.transition).path.length := by
    unfold traversalOrder
    by_cases h : node.curve_forward <;> simp [h]
  simp [List.length_zip, List.length_tail, hlen]

/-- The claim as stated is false: a two-point polyline renders one pose, not
two; the first point in traversal order is skipped (the forward loop starts
at index 1, the backward loop at index `m - 2`). -/
theorem insert_curve_segment_skips_first_point :
    (insertCurveSegment P0 course0 ⟨0, true, 1, ⊤, none, none⟩ []).length = 1 ∧
    (insertCurveSegment P0 course0 ⟨0, false, 0, ⊤, none, none⟩ []).length = 1 ∧
    (course0.transOf 0).path.length = 2 ∧
    insertCurveSegment P0 course0 ⟨0, true, 1, ⊤, none, none⟩ [] =
      [⟨20, 0, 0⟩] := by
  refine ⟨?_, ?_, ?_, ?_⟩ <;> with_unfolding_all rfl

/-! ## C4 -/

theorem insertByCost_mem_self (ns : NodeMap) : ∀ (q : List Nat) (t : Nat),
    t ∈ insertByCost ns q t
  | [], t => by simp [insertByCost]
  | u :: rest, t => by
      unfold insertByCost
      split
      · exact List.mem_cons_self t (u :: rest)
      · exact List.mem_cons_of_mem u (insertByCost_mem_self ns rest t)

theorem insertByCost_mem_mono (ns : NodeMap) : ∀ (q : List Nat) (t x : Nat),
    x ∈ q → x ∈ insertByCost ns q t
  | [], _, x, hx => absurd hx (List.not_mem_nil x)
  | u :: rest, t, x, hx => by
      unfold insertByCost
      split
      · exact List.mem_cons_of_mem t hx
      · rcases List.mem_cons.mp hx with h | h
        · exact h ▸ List.mem_cons_self x (insertByCost ns rest t)
        · exact List.mem_cons_of_mem u (insertByCost_mem_mono ns rest t x h)

theorem insertByCost_mem (ns : NodeMap) : ∀ (q : List Nat) (t x : Nat),
    x ∈ insertByCost ns q t → x ∈ q ∨ x = t
  | [], t, x, hx => Or.inr (by simpa [insertByCost] using hx)
  | u :: rest, t, x, hx => by
      unfold insertByCost at hx
      split at hx
      · rcases List.mem_cons.mp hx with h | h
        · exact Or.inr h
        · exact Or.inl h
      · rcases List.mem_cons.mp hx with h | h
        · exact Or.inl (h ▸ List.mem_cons_self x rest)
        · rcases insertByCost_mem ns rest t x h with h2 | h2
          · exact Or.inl (List.mem_cons_of_mem u h2)
          · exact Or.inr h2

theorem qinsert_mem_mono (ns : NodeMap) (q : List Nat) (t x : Nat) (hx : x ∈ q) :
    x ∈ qinsert ns q t := by
  unfold qinsert
  split
  · exact hx
  · exact insertByCost_mem_mono ns q t x hx

theorem qinsert_mem (ns : NodeMap) (q : List Nat) (t x : Nat) (hx : x ∈ qinsert ns q t) :
    x ∈ q ∨ x = t := by
  unfold qinsert at hx
  split at hx
  · exact Or.inl hx
  · exact insertByCost_mem ns q t x hx

/-- One seeding step, written out. -/
theorem enqueueStep_eq (P : Params) (course : Course) (ctx : SearchCtx)
    (ns : NodeMap) (q : List Nat) (a : Nat) :
    enqueueStep P course ctx (ns, q) a =
      (updN ns a { ns a with cost := ((calculateStraightCost P course ctx ns (ns a)
          ctx.start_pt (startEntryPoint course (ns a)) : ℚ) : WithTop ℚ) },
       qinsert (updN ns a { ns a with cost := ((calculateStraightCost P course ctx ns (ns a)
          ctx.start_pt (startEntryPoint course (ns a)) : ℚ) : WithTop ℚ) }) q a) := rfl

theorem enqueue_foldl_map_stable (P : Params) (course : Course) (ctx : SearchCtx) :
    ∀ (L : List Nat) (acc : NodeMap × List Nat) (t : Nat), t ∉ L →
      (L.foldl (enqueueStep P course ctx) acc).1 t = acc.1 t
  | [], _, _, _ => rfl
  | a :: L, acc, t, ht => by
      have hne : t ≠ a := fun h => ht (h ▸ List.mem_cons_self t L)
      rw [List.foldl_cons,
        enqueue_foldl_map_stable P course ctx L _ t (fun h => ht (List.mem_cons_of_mem a h))]
      exact updN_other _ _ _ _ hne

theorem enqueue_foldl_queue_mono (P : Params) (course : Course) (ctx : SearchCtx) :
    ∀ (L : List Nat) (acc : NodeMap × List Nat) (x : Nat), x ∈ acc.2 →
      x ∈ (L.foldl (enqueueStep P course ctx) acc).2
  | [], _, _, hx => hx
  | a :: L, acc, x, hx => by
      rw [List.foldl_cons]
      exact enqueue_foldl_queue_mono P course ctx L _ x
        (qinsert_mem_mono _ acc.2 a x hx)

/-- Main invariant of the seeding loop: every processed transition has its
cost written, and the frontier holds it or an equal-cost element inserted
earlier. -/
theorem enqueue_foldl_spec (P : Params) (course : Course) (ctx : SearchCtx) :
    ∀ (L : List Nat) (ns : NodeMap) (q : List Nat),
      L.Nodup → (∀ u, (ns u).prev = none) → (∀ x ∈ q, x ∉ L) →
      ∀ t ∈ L,
        ((L.foldl (enqueueStep P course ctx) (ns, q)).1 t).cost =
          ((calculateStraightCost P course ctx ns (ns t) ctx.start_pt
            (startEntryPoint course (ns t)) : ℚ) : WithTop ℚ) ∧
        (t ∈ (L.foldl (enqueueStep P course ctx) (ns, q)).2 ∨
          ∃ u, u ∈ (L.foldl (enqueueStep P course ctx) (ns, q)).2 ∧ u ≠ t ∧
            ((L.foldl (enqueueStep P course ctx) (ns, q)).1 u).cost =
              ((L.foldl (enqueueStep P course ctx) (ns, q)).1 t).cost) := by
  intro L
  induction L with
  | nil => intro ns q _ _ _ t ht; exact absurd ht (List.not_mem_nil t)
  | cons a L ih =>
    intro ns q hnd hprev hq t ht
    have ha : a ∉ L := (List.nodup_cons.mp hnd).1
    have hnd' : L.Nodup := (List.nodup_cons.mp hnd).2
    rw [List.foldl_cons, enqueueStep_eq]
    set c : ℚ := calculateStraightCost P course ctx ns (ns a)
      ctx.start_pt (startEntryPoint course (ns a)) with hc
    set ns1 : NodeMap := updN ns a { ns a with cost := ((c : ℚ) : WithTop ℚ) } with hns1
    set q1 : List Nat := qinsert ns1 q a with hq1
    have hprev1 : ∀ u, (ns1 u).prev = none := by
      intro u
      rw [hns1, updN_apply]
      split
      · exact hprev a
      · exact hprev u
    have hq1L : ∀ x ∈ q1, x ∉ L := by
      intro x hx
      rcases qinsert_mem ns1 q a x hx with h | h
      · exact fun hmem => hq x h (List.mem_cons_of_mem a hmem)
      · exact h ▸ ha
    rcases List.mem_cons.mp ht with rfl | htL
    · constructor
      · rw [enqueue_foldl_map_stable P course ctx L (ns1, q1) t ha]
        show (updN ns t { ns t with cost := ((c : ℚ) : WithTop ℚ) } t).cost = _
        rw [updN_same]
      · by_cases hfind : q.any (fun u => decide ((ns1 u).cost = (ns1 t).cost)) = true
        · rcases List.any_eq_true.mp hfind with ⟨v, hvq, hveq⟩
          have hveq2 : (ns1 v).cost = (ns1 t).cost := of_decide_eq_true hveq
          have hvnot : v ∉ t :: L := hq v hvq
          have hvt : v ≠ t := fun h => hvnot (h ▸ List.mem_cons_self t L)
          have hvL : v ∉ L := fun h => hvnot (List.mem_cons_of_mem t h)
          have hq1eq : q1 = q := by
            rw [hq1]
            unfold qinsert
            rw [if_pos hfind]
          refine Or.inr ⟨v, ?_, hvt, ?_⟩
          · exact enqueue_foldl_queue_mono P course ctx L (ns1, q1) v (hq1eq ▸ hvq)
          · rw [enqueue_foldl_map_stable P course ctx L (ns1, q1) v hvL,
              enqueue_foldl_map_stable P course ctx L (ns1, q1) t ha, hveq2]
        · have htq1 : t ∈ q1 := by
            rw [hq1]
            unfold qinsert
            rw [if_neg hfind]
            exact insertByCost_mem_self ns1 q t
          exact Or.inl (enqueue_foldl_queue_mono P course ctx L (ns1, q1) t htq1)
    · have hta : t ≠ a := fun h => ha (h ▸ htL)
      have hres := ih ns1 q1 hnd' hprev1 hq1L t htL
      refine ⟨?_, hres.2⟩
      have hnst : ns1 t = ns t := updN_other ns a _ t hta
      rw [hres.1, hnst,
        calculateStraightCost_prev_none P course ctx ns1 ns (ns t) (hprev t)]

/-- Helper: every node built by the per-segment initialization loops has no
predecessor. -/
theorem foldl_updN_prev (mk : Nat → Node) (hmk : ∀ t, (mk t).prev = none) :
    ∀ (L : List Nat) (ns : NodeMap), (∀ u, (ns u).prev = none) →
      ∀ u, ((L.foldl (fun m t => updN m t (mk t)) ns) u).prev = none
  | [], _, h, u => h u
  | a :: L, ns, h, u => by
      rw [List.foldl_cons]
      refine foldl_updN_prev mk hmk L _ ?_ u
      intro w
      rw [updN_apply]
      split
      · exact hmk a
      · exact h w

theorem initNodes_prev_none (course : Course) : ∀ u, (initNodes course u).prev = none := by
  have main : ∀ (L : List Nat) (ns : NodeMap), (∀ u, (ns u).prev = none) →
      ∀ u, ((L.foldl (initSegNodes course) ns) u).prev = none := by
    intro L
    induction L with
    | nil => intro ns h u; exact h u
    | cons s L ih =>
      intro ns h u
      rw [List.foldl_cons]
      refine ih _ ?_ u
      intro w
      unfold initSegNodes
      exact foldl_updN_prev
        (fun t => (⟨t, false, (course.transOf t).source, ⊤, none, none⟩ : Node))
        (fun _ => rfl) _ _
        (foldl_updN_prev
          (fun t => (⟨t, true, (course.transOf t).target, ⊤, none, none⟩ : Node))
          (fun _ => rfl) _ _ h) w
  exact main course.segIds (fun _ => defaultNode) (fun _ => rfl)

/-- C4 (amended): after `enqueueStartingNodes`, every transition of the start
segment's two lists has its node's cost set to the straight-segment cost from
the start point to its entry point, and the frontier contains it, or an
equal-cost node inserted earlier in its place: the frontier is a `std::set`
ordered solely by cost, so an insert whose cost equals an existing element's
is rejected. -/
theorem enqueue_start_nodes_spec :
    ∀ (P : Params) (course : Course) (ctx : SearchCtx) (t : Nat),
      ((course.segOf ctx.start_segment).forward_transitions ++
        (course.segOf ctx.start_segment).backward_transitions).Nodup →
      t ∈ (course.segOf ctx.start_segment).forward_transitions ++
        (course.segOf ctx.start_segment).backward_transitions →
      (((enqueueStartingNodes P course ctx (initNodes course)).1 t).cost =
        ((calculateStraightCost P course ctx (initNodes course) (initNodes course t)
          ctx.start_pt (startEntryPoint course (initNodes course t)) : ℚ) : WithTop ℚ)) ∧
      (t ∈ (enqueueStartingNodes P course ctx (initNodes course)).2 ∨
        ∃ u, u ∈ (enqueueStartingNodes P course ctx (initNodes course)).2 ∧ u ≠ t ∧
          ((enqueueStartingNodes P course ctx (initNodes course)).1 u).cost =
            ((enqueueStartingNodes P course ctx (initNodes course)).1 t).cost) := by
  intro P course ctx t hnd ht
  exact enqueue_foldl_spec P course ctx _ (initNodes course) []
    hnd (initNodes_prev_none course) (by simp) t ht

/-- Instantiation of the seeding specification at the single start
transition of `ctx1`. -/
theorem enqueue_start_nodes_spec_inst :
    (((enqueueStartingNodes P0 course0 ctx1 (initNodes course0)).1 0).cost =
      ((calculateStraightCost P0 course0 ctx1 (initNodes course0) (initNodes course0 0)
        ctx1.start_pt (startEntryPoint course0 (initNodes course0 0)) : ℚ) : WithTop ℚ)) ∧
    (0 ∈ (enqueueStartingNodes P0 course0 ctx1 (initNodes course0)).2 ∨
      ∃ u, u ∈ (enqueueStartingNodes P0 course0 ctx1 (initNodes course0)).2 ∧ u ≠ 0 ∧
        ((enqueueStartingNodes P0 course0 ctx1 (initNodes course0)).1 u).cost =
          ((enqueueStartingNodes P0 course0 ctx1 (initNodes course0)).1 0).cost) :=
  enqueue_start_nodes_spec P0 course0 ctx1 0 (by decide) (by decide)

/-- The claim as stated is false: the two mirror-image start transitions of
segment 4 both get cost 1, and the second insert is rejected by the cost-keyed
set, so transition 2 is missing from the frontier. -/
theorem enqueue_equal_cost_candidate_dropped :
    ((course0.segOf ctx4.start_segment).forward_transitions ++
      (course0.segOf ctx4.start_segment).backward_transitions = [1, 2]) ∧
    ((enqueueStartingNodes P0 course0 ctx4 (initNodes course0)).1 1).cost =
      ((1 : ℚ) : WithTop ℚ) ∧
    ((enqueueStartingNodes P0 course0 ctx4 (initNodes course0)).1 2).cost =
      ((1 : ℚ) : WithTop ℚ) ∧
    (enqueueStartingNodes P0 course0 ctx4 (initNodes course0)).2 = [1] ∧
    ¬ 2 ∈ (enqueueStartingNodes P0 course0 ctx4 (initNodes course0)).2 := by
  have hqueue : (enqueueStartingNodes P0 course0 ctx4 (initNodes course0)).2 = [1] := by
    with_unfolding_all rfl
  refine ⟨by with_unfolding_all rfl, by with_unfolding_all rfl, by with_unfolding_all rfl,
    hqueue, ?_⟩
  rw [hqueue]
  simp

/-! ## C2 -/

/-- A single relaxation never increases any node's stored cost: the only
cost write is guarded by a strict improvement. -/
theorem relaxOne_cost_le (P : Params) (course : Course) (ctx : SearchCtx) (t : Nat)
    (acc : NodeMap × List Nat) (u w : Nat) :
    (((relaxOne P course ctx t acc u).1) w).cost ≤ ((acc.1) w).cost := by
  unfold relaxOne
  simp only []
  split
  · rename_i hlt
    by_cases hwu : w = u
    · subst hwu
      simpa [updN] using le_of_lt hlt
    · by_cases hwt : w = t
      · subst hwt
        simp [updN, hwu]
      · simp [updN, hwu, hwt]
  · exact le_refl _

theorem foldl_relax_cost_le (P : Params) (course : Course) (ctx : SearchCtx) (t : Nat) :
    ∀ (L : List Nat) (acc : NodeMap × List Nat) (w : Nat),
      (((L.foldl (relaxOne P course ctx t) acc).1) w).cost ≤ ((acc.1) w).cost
  | [], _, _ => le_refl _
  | a :: L, acc, w => by
      rw [List.foldl_cons]
      exact le_trans (foldl_relax_cost_le P course ctx t L _ w)
        (relaxOne_cost_le P course ctx t acc a w)

/-- C2 (amended): during an expansion step (a dequeued node whose resulting
segment is not the end segment), no node's recorded cost increases — the
relaxation updates are strictly decreasing.  (Candidate finalization is the
exception the original claim misses.) -/
theorem relaxation_cost_nonincreasing :
    ∀ (P : Params) (course : Course) (ctx : SearchCtx) (cfuel : Nat) (s : SState)
      (t : Nat) (rest : List Nat),
      s.queue = t :: rest →
      (s.nodes t).next_segment ≠ ctx.end_segment →
      ∀ u, (((dijkstraStep P course ctx cfuel s).getD s).nodes u).cost ≤
        (s.nodes u).cost := by
  intro P course ctx cfuel s t rest hq hne u
  unfold dijkstraStep
  rw [hq]
  simp only [hne, if_false, Option.getD_some]
  exact foldl_relax_cost_le P course ctx t _ (s.nodes, rest) u

/-- Instantiation of the non-increase statement at a concrete expansion
step. -/
theorem relaxation_cost_nonincreasing_inst :
    (((dijkstraStep P0 course0 ctx2 5 sW).getD sW).nodes 0).cost ≤ (sW.nodes 0).cost :=
  relaxation_cost_nonincreasing P0 course0 ctx2 5 sW 0 [] rfl (by decide) 0

/-- The claim as stated is false: dequeuing the goal-reaching node 0 adds the
deferred end-connection cost to its stored cost in place
(`node->cost += additional_cost`), raising it from 10 to 20 within a single
search run. -/
theorem candidate_finalization_increases_cost :
    ((initialSearchState P0 course0 ctx1 []).nodes 0).cost = ((10 : ℚ) : WithTop ℚ) ∧
    ((dijkstraRun P0 course0 ctx1 5 5 (initialSearchState P0 course0 ctx1 [])).nodes 0).cost =
      ((20 : ℚ) : WithTop ℚ) ∧
    ((10 : ℚ) : WithTop ℚ) < ((20 : ℚ) : WithTop ℚ) := by
  refine ⟨by with_unfolding_all rfl, by with_unfolding_all rfl, ?_⟩
  exact_mod_cast (by norm_num : (10 : ℚ) < 20)

/-! ## C1 -/

/-- The chain walk of `generatePathCandidate` only repairs `next` links; no
node's cost changes. -/
theorem buildChain_cost : ∀ (fuel : Nat) (ns : NodeMap) (t u : Nat),
    (((buildChain fuel ns t).2) u).cost = (ns u).cost
  | 0, _, _, _ => rfl
  | fuel + 1, ns, t, u => by
      unfold buildChain
      rcases hp : (ns t).prev with _ | p
      · rfl
      · show ((buildChain fuel (updN ns p { ns p with next := some t }) p).2 u).cost =
          (ns u).cost
        rw [buildChain_cost fuel _ p u, updN_apply]
        split
        · rename_i h
          rw [h]
        · rfl

theorem updN_cost_write (ns : NodeMap) (t : Nat) (x : WithTop ℚ) :
    (updN ns t { ns t with cost := x } t).cost = x := by
  simp [updN]

/-- `generatePathCandidate` writes the deferred total into the node's cost. -/
theorem generatePathCandidate_node_cost (P : Params) (course : Course) (ctx : SearchCtx)
    (cfuel : Nat) (s : SState) (t : Nat) :
    ((generatePathCandidate P course ctx cfuel s t).nodes t).cost =
      (s.nodes t).cost + ((deferredCost P course ctx s.nodes t : ℚ) : WithTop ℚ) := by
  unfold generatePathCandidate
  simp only []
  split
  · show ((buildChain cfuel _ t).2 t).cost = _
    rw [buildChain_cost, updN_cost_write]
  · show (updN s.nodes t _ t).cost = _
    rw [updN_cost_write]

/-- `generatePathCandidate` keeps the running minimum over candidate
totals. -/
theorem generatePathCandidate_min (P : Params) (course : Course) (ctx : SearchCtx)
    (cfuel : Nat) (s : SState) (t : Nat) :
    (generatePathCandidate P course ctx cfuel s t).min_cost =
      min s.min_cost
        ((s.nodes t).cost + ((deferredCost P course ctx s.nodes t : ℚ) : WithTop ℚ)) := by
  unfold generatePathCandidate
  simp only [updN_cost_write]
  split
  · rename_i h
    exact (min_eq_right (le_of_lt h)).symm
  · rename_i h
    exact (min_eq_left (not_lt.mp h)).symm

/-- `generatePathCandidate` regenerates the best path exactly when the total
improves the running minimum. -/
theorem generatePathCandidate_best (P : Params) (course : Course) (ctx : SearchCtx)
    (cfuel : Nat) (s : SState) (t : Nat) :
    (((s.nodes t).cost + ((deferredCost P course ctx s.nodes t : ℚ) : WithTop ℚ) < s.min_cost →
      (generatePathCandidate P course ctx cfuel s t).best_path =
        generatePath P course ctx
          (buildChain cfuel (updN s.nodes t { s.nodes t with
            cost := (s.nodes t).cost + ((deferredCost P course ctx s.nodes t : ℚ) : WithTop ℚ) }) t).2
          (buildChain cfuel (updN s.nodes t { s.nodes t with
            cost := (s.nodes t).cost + ((deferredCost P course ctx s.nodes t : ℚ) : WithTop ℚ) }) t).1) ∧
     (¬ (s.nodes t).cost + ((deferredCost P course ctx s.nodes t : ℚ) : WithTop ℚ) < s.min_cost →
      (generatePathCandidate P course ctx cfuel s t).best_path = s.best_path)) := by
  unfold generatePathCandidate
  simp only [updN_cost_write]
  split
  · rename_i h
    exact ⟨fun _ => rfl, fun h2 => absurd h h2⟩
  · rename_i h
    exact ⟨fun h2 => absurd h2 h, fun _ => rfl⟩

/-- A dequeued node whose resulting segment is the end segment finalizes a
candidate and the loop continues (the step yields a successor state). -/
theorem dijkstraStep_goal (P : Params) (course : Course) (ctx : SearchCtx) (cfuel : Nat)
    (s : SState) (t : Nat) (rest : List Nat) (hq : s.queue = t :: rest)
    (hgoal : (s.nodes t).next_segment = ctx.end_segment) :
    dijkstraStep P course ctx cfuel s =
      some (generatePathCandidate P course ctx cfuel { s with queue := rest } t) := by
  unfold dijkstraStep
  rw [hq]
  show (if (s.nodes t).next_segment = ctx.end_segment then _ else _) = _
  rw [if_pos hgoal]

/-- The loop exits exactly when the frontier is empty. -/
theorem dijkstraStep_none_iff (P : Params) (course : Course) (ctx : SearchCtx) (cfuel : Nat)
    (s : SState) :
    dijkstraStep P course ctx cfuel s = none ↔ s.queue = [] := by
  constructor
  · intro h
    unfold dijkstraStep at h
    cases hq : s.queue with
    | nil => rfl
    | cons t rest =>
        rw [hq] at h
        by_cases hgoal : (s.nodes t).next_segment = ctx.end_segment
        · rw [show (match t :: rest with
            | [] => (none : Option SState)
            | t :: rest =>
              if (s.nodes t).next_segment = ctx.end_segment then
                some (generatePathCandidate P course ctx cfuel { s with queue := rest } t)
              else
                some { s with
                  nodes := (expand P course ctx t s.nodes rest).1,
                  queue := (expand P course ctx t s.nodes rest).2 }) =
              if (s.nodes t).next_segment = ctx.end_segment then
                some (generatePathCandidate P course ctx cfuel { s with queue := rest } t)
              else
                some { s with
                  nodes := (expand P course ctx t s.nodes rest).1,
                  queue := (expand P course ctx t s.nodes rest).2 } from rfl,
            if_pos hgoal] at h
          exact absurd h (by simp)
        · rw [show (match t :: rest with
            | [] => (none : Option SState)
            | t :: rest =>
              if (s.nodes t).next_segment = ctx.end_segment then
                some (generatePathCandidate P course ctx cfuel { s with queue := rest } t)
              else
                some { s with
                  nodes := (expand P course ctx t s.nodes rest).1,
                  queue := (expand P course ctx t s.nodes rest).2 }) =
              if (s.nodes t).next_segment = ctx.end_segment then
                some (generatePathCandidate P course ctx cfuel { s with queue := rest } t)
              else
                some { s with
                  nodes := (expand P course ctx t s.nodes rest).1,
                  queue := (expand P course ctx t s.nodes rest).2 } from rfl,
            if_neg hgoal] at h
          exact absurd h (by simp)
  · intro h
    unfold dijkstraStep
    rw [h]

/-- C1 (amended): a dequeued node whose resulting segment is the end segment
finalizes a path candidate — its node cost is raised by the deferred
end-connection cost, the running minimum is updated and the best path is
regenerated exactly when the total improves it — and the loop continues; the
loop terminates only when the frontier is empty; the returned sequence is the
final best path glued between the two appendices.  (When no candidate is
found this is the concatenated appendices around the untouched member best
path, not an empty sequence.) -/
theorem dijkstra_deferred_finalization_structure :
    ∀ (P : Params) (course : Course) (ctx : SearchCtx) (cfuel : Nat),
      (∀ (s : SState) (t : Nat) (rest : List Nat), s.queue = t :: rest →
        (s.nodes t).next_segment = ctx.end_segment →
        dijkstraStep P course ctx cfuel s =
          some (generatePathCandidate P course ctx cfuel { s with queue := rest } t)) ∧
      (∀ s : SState, dijkstraStep P course ctx cfuel s = none ↔ s.queue = []) ∧
      (∀ (fuel : Nat) (memb : List PathPose),
        performDijkstraSearch P course ctx fuel cfuel memb =
          (combine ctx.start_appendix
            (dijkstraRun P course ctx cfuel fuel
              (initialSearchState P course ctx memb)).best_path ctx.end_appendix,
           (dijkstraRun P course ctx cfuel fuel
              (initialSearchState P course ctx memb)).best_path)) ∧
      (∀ (s : SState) (t : Nat),
        (generatePathCandidate P course ctx cfuel s t).min_cost =
          min s.min_cost
            ((s.nodes t).cost + ((deferredCost P course ctx s.nodes t : ℚ) : WithTop ℚ)) ∧
        ((generatePathCandidate P course ctx cfuel s t).nodes t).cost =
          (s.nodes t).cost + ((deferredCost P course ctx s.nodes t : ℚ) : WithTop ℚ) ∧
        ((s.nodes t).cost + ((deferredCost P course ctx s.nodes t : ℚ) : WithTop ℚ) <
            s.min_cost →
          (generatePathCandidate P course ctx cfuel s t).best_path =
            generatePath P course ctx
              (buildChain cfuel (updN s.nodes t { s.nodes t with
                cost := (s.nodes t).cost +
                  ((deferredCost P course ctx s.nodes t : ℚ) : WithTop ℚ) }) t).2
              (buildChain cfuel (updN s.nodes t { s.nodes t with
                cost := (s.nodes t).cost +
                  ((deferredCost P course ctx s.nodes t : ℚ) : WithTop ℚ) }) t).1) ∧
        (¬ (s.nodes t).cost + ((deferredCost P course ctx s.nodes t : ℚ) : WithTop ℚ) <
            s.min_cost →
          (generatePathCandidate P course ctx cfuel s t).best_path = s.best_path)) := by
  intro P course ctx cfuel
  refine ⟨dijkstraStep_goal P course ctx cfuel, dijkstraStep_none_iff P course ctx cfuel,
    fun fuel memb => rfl, fun s t => ?_⟩
  exact ⟨generatePathCandidate_min P course ctx cfuel s t,
    generatePathCandidate_node_cost P course ctx cfuel s t,
    (generatePathCandidate_best P course ctx cfuel s t).1,
    (generatePathCandidate_best P course ctx cfuel s t).2⟩

/-- Instantiation: the goal-reaching dequeue of the `env1` search finalizes
and continues, and an already-dominated candidate leaves the best path
untouched. -/
theorem dijkstra_deferred_finalization_structure_inst :
    dijkstraStep P0 course0 ctx1 5 (initialSearchState P0 course0 ctx1 []) =
      some (generatePathCandidate P0 course0 ctx1 5
        { initialSearchState P0 course0 ctx1 [] with queue := [] } 0) ∧
    (generatePathCandidate P0 course0 ctx1 5 sH 0).best_path = sH.best_path := by
  constructor
  · exact (dijkstra_deferred_finalization_structure P0 course0 ctx1 5).1
      (initialSearchState P0 course0 ctx1 []) 0 [] (by with_unfolding_all rfl)
      (by with_unfolding_all rfl)
  · refine ((dijkstra_deferred_finalization_structure P0 course0 ctx1 5).2.2.2 sH 0).2.2.2 ?_
    have htop : (sH.nodes 0).cost = ⊤ := by with_unfolding_all rfl
    rw [htop, top_add]
    exact lt_irrefl ⊤

/-- The claim's final clause is false: a completed search that finds no
candidate (frontier exhausted, `min_cost` still infinite, best path
untouched) returns the two nonempty appendices concatenated, not an empty
sequence. -/
theorem dijkstra_no_candidate_returns_appendices :
    (dijkstraRun P0 course0 ctx2 5 5 (initialSearchState P0 course0 ctx2 [])).queue = [] ∧
    (dijkstraRun P0 course0 ctx2 5 5 (initialSearchState P0 course0 ctx2 [])).min_cost = ⊤ ∧
    (dijkstraRun P0 course0 ctx2 5 5 (initialSearchState P0 course0 ctx2 [])).best_path = [] ∧
    findPath P0 course0 env2 5 5 [] = .ok ([⟨100, 100, 0⟩, ⟨210, 200, 0⟩], []) ∧
    ([⟨100, 100, 0⟩, ⟨210, 200, 0⟩] : List PathPose) ≠ [] := by
  refine ⟨by with_unfolding_all rfl, by with_unfolding_all rfl, by with_unfolding_all rfl,
    by with_unfolding_all rfl, ?_⟩
  simp

/-! ## C5 -/

/-- C5 (amended): at the start of a search `min_cost` is reset to infinity
and the node arena and frontier are rebuilt from the request alone — they do
not depend on carried member state — but the member `best_path` is NOT
reset: the search starts from the previous invocation's value and only
overwrites it when a candidate improves `min_cost`. -/
theorem search_state_initialization :
    ∀ (P : Params) (course : Course) (ctx : SearchCtx) (memb memb' : List PathPose),
      (initialSearchState P course ctx memb).min_cost = ⊤ ∧
      (initialSearchState P course ctx memb).best_path = memb ∧
      (initialSearchState P course ctx memb).nodes =
        (initialSearchState P course ctx memb').nodes ∧
      (initialSearchState P course ctx memb).queue =
        (initialSearchState P course ctx memb').queue :=
  fun _ _ _ _ _ => ⟨rfl, rfl, rfl, rfl⟩

/-- The claim as stated is false: the best path `B1` computed by a first
`findPath` call is returned verbatim by a second call (between the second
call's appendices) when the second search finds no candidate, while the same
second call with a fresh member state returns only the appendices. -/
theorem stale_best_path_leaks_across_calls :
    findPath P0 course0 env1 5 5 [] = .ok ([⟨0, 0, 0⟩] ++ B1 ++ [⟨30, 0, 0⟩], B1) ∧
    findPath P0 course0 env2 5 5 B1 = .ok ([⟨100, 100, 0⟩] ++ B1 ++ [⟨210, 200, 0⟩], B1) ∧
    findPath P0 course0 env2 5 5 [] =
      .ok ([⟨100, 100, 0⟩] ++ ([] : List PathPose) ++ [⟨210, 200, 0⟩], []) ∧
    B1 ≠ [] := by
  refine ⟨by with_unfolding_all rfl, by with_unfolding_all rfl,
    by with_unfolding_all rfl, ?_⟩
  simp [B1]

/-! ## C9 -/

/-- C9: when the start and end segments coincide, `findPath` skips the graph
search and returns exactly the start appendix, a pose at the start point
headed along the start segment, a pose at the end point headed along the end
segment, and the end appendix — no curve insertions, no transitions. -/
theorem same_segment_short_circuit :
    ∀ (P : Params) (course : Course) (env : Env) (fuel cfuel : Nat)
      (memb : List PathPose) (ctx : SearchCtx),
      env.mapOk = true →
      findAppendices course env = .ok (some ctx) →
      ctx.start_segment = ctx.end_segment →
      ctx.start_appendix ≠ [] →
      findPath P course env fuel cfuel memb =
        .ok (ctx.start_appendix ++
          ([⟨ctx.start_pt.x, ctx.start_pt.y,
             P.atan2 (Vec.sub (course.segOf ctx.start_segment).line.ep
                 (course.segOf ctx.start_segment).line.sp).y
               (Vec.sub (course.segOf ctx.start_segment).line.ep
                 (course.segOf ctx.start_segment).line.sp).x⟩,
            ⟨ctx.end_pt.x, ctx.end_pt.y,
             P.atan2 (Vec.sub (course.segOf ctx.end_segment).line.ep
                 (course.segOf ctx.end_segment).line.sp).y
               (Vec.sub (course.segOf ctx.end_segment).line.ep
                 (course.segOf ctx.end_segment).line.sp).x⟩] ++ ctx.end_appendix),
          memb) := by
  intro P course env fuel cfuel memb ctx hmap happ hsame hsa
  unfold findPath
  rw [hmap, if_neg (by decide : ¬ (true = false)), happ]
  show (if ctx.start_segment = ctx.end_segment then
      Except.ok (combine ctx.start_appendix
        (insertLastNode P course ctx (insertFirstNode P course ctx []))
        ctx.end_appendix, memb)
    else Except.ok (performDijkstraSearch P course ctx fuel cfuel memb)) = _
  rw [if_pos hsame]
  unfold combine insertFirstNode insertLastNode
  rw [if_neg (fun hcontra => hsa hcontra.1)]
  simp

/-- Instantiation at the concrete same-segment request `env9`. -/
theorem same_segment_short_circuit_inst :
    findPath P0 course0 env9 5 5 [] =
      .ok (ctx9.start_appendix ++
        ([⟨ctx9.start_pt.x, ctx9.start_pt.y,
           P0.atan2 (Vec.sub (course0.segOf ctx9.start_segment).line.ep
               (course0.segOf ctx9.start_segment).line.sp).y
             (Vec.sub (course0.segOf ctx9.start_segment).line.ep
               (course0.segOf ctx9.start_segment).line.sp).x⟩,
          ⟨ctx9.end_pt.x, ctx9.end_pt.y,
           P0.atan2 (Vec.sub (course0.segOf ctx9.end_segment).line.ep
               (course0.segOf ctx9.end_segment).line.sp).y
             (Vec.sub (course0.segOf ctx9.end_segment).line.ep
               (course0.segOf ctx9.end_segment).line.sp).x⟩] ++ ctx9.end_appendix),
        []) :=
  same_segment_short_circuit P0 course0 env9 5 5 [] ctx9 rfl
    (by with_unfolding_all rfl) rfl (by decide)

/-! ## C6 -/

/-- C6 fails on the code: when the nearest-segment lookup for the start
appendix endpoint returns no segment, line 196 of `search.cpp` dereferences
the null `start_segment` pointer (`start_segment->line.nearestPointTo`)
before the `if(!start_segment)` guard of line 197 can abort, so `findPath`
crashes instead of returning the empty sequence. -/
theorem closest_segment_null_deref :
    env6.mapOk = true ∧ env6.startAppendixRes ≠ [] ∧ env6.closestStart = none ∧
    findAppendices course0 env6 = .error .nullDeref ∧
    findPath P0 course0 env6 5 5 [] = .error .nullDeref := by
  refine ⟨rfl, by decide, rfl, by with_unfolding_all rfl, by with_unfolding_all rfl⟩

end GeronaSearch
